import Mathlib

/-!
Verification of the CSP directive editor (`getcsp.js`).

The program's strings are modelled as `List Char`; every string operation
used by the source (`split` on a one-character separator, `trim`, `join`,
`filter`, `toUpperCase`, `parseInt`) is given a definition mirroring its
JavaScript semantics. The directive set — a plain JavaScript object — is
modelled as an association list in property-creation order together with
`objEntries`, the ECMAScript own-property enumeration order used by
`Object.entries` / `Object.keys` (integer-index keys first, in ascending
numeric order, then the remaining keys in creation order). Assigning to
the key `__proto__` on a plain object writes the prototype slot instead of
creating an own property, so `objInsert` leaves the store unchanged there.
-/

namespace CSPEd

/-- A JavaScript string, as its list of characters. -/
abbrev Str := List Char

/-- Shorthand for writing concrete strings. -/
def str (s : String) : Str := s.toList

/-- The whitespace class used by `trim` (space, tab, newline, carriage
return — the ASCII part of the JavaScript class, which suffices for every
character the source or the claims mention). -/
def isWS (c : Char) : Bool := c == ' ' || c == '\t' || c == '\n' || c == '\r'

/-- JavaScript `String.prototype.trim`: remove leading and trailing
whitespace. -/
def trim (s : Str) : Str := ((s.dropWhile isWS).reverse.dropWhile isWS).reverse

/-- Core of `split` with a one-character separator: the first piece and the
remaining pieces. -/
def splitCore (sep : Char) : Str → Str × List Str
  | [] => ([], [])
  | c :: rest =>
    let r := splitCore sep rest
    if c = sep then ([], r.1 :: r.2) else (c :: r.1, r.2)

/-- JavaScript `s.split(sep)` for a one-character separator `sep`: every
occurrence separates, empty pieces are kept, `"".split(sep) = [""]`. -/
def splitOnChar (sep : Char) (s : Str) : List Str :=
  (splitCore sep s).1 :: (splitCore sep s).2

/-- JavaScript `Array.prototype.join`: pieces interleaved with the
separator; the empty array joins to the empty string. -/
def joinSep (sep : Str) : List Str → Str
  | [] => []
  | [x] => x
  | x :: y :: xs => x ++ sep ++ joinSep sep (y :: xs)

/-- The value of a digit character. -/
def digitVal (c : Char) : Nat := c.toNat - 48

/-- A string of decimal digits as a number; `none` when empty or not all
digits. -/
def strToNat? (s : Str) : Option Nat :=
  if s ≠ [] ∧ s.all Char.isDigit then
    some (s.foldl (fun a c => a * 10 + digitVal c) 0)
  else none

/-- The canonical decimal rendering of a natural number. -/
def natToStr (n : Nat) : Str := Nat.toDigits 10 n

/-- ECMAScript array-index property key: the canonical decimal string of an
integer `0 ≤ i < 2^32 - 1`. Such keys are enumerated before all others. -/
def isArrayIndex (k : Str) : Bool :=
  match strToNat? k with
  | some n => decide (n < 4294967295) && decide (natToStr n = k)
  | none => false

/-- The directive set: a JavaScript object as its own data properties in
property-creation order, each directive name mapped to its value tokens. -/
abbrev Obj := List (Str × List Str)

/-- The numeric value of an entry's key, for ordering array-index keys. -/
def keyNum (e : Str × List Str) : Nat := (strToNat? e.1).getD 0

/-- Comparison of entries by numeric key value. -/
def entryLE (p q : Str × List Str) : Prop := keyNum p ≤ keyNum q

instance : DecidableRel entryLE := fun p q => Nat.decLe (keyNum p) (keyNum q)

instance : IsTotal (Str × List Str) entryLE := ⟨fun p q => Nat.le_total (keyNum p) (keyNum q)⟩

instance : IsTrans (Str × List Str) entryLE := ⟨fun _ _ _ h h' => Nat.le_trans h h'⟩

/-- `directives[k] = v` on a plain JavaScript object: assigning to
`__proto__` writes the prototype slot (no own property appears); an
existing key keeps its creation position and gets the new value; a new key
is appended. -/
def objInsert (store : Obj) (k : Str) (v : List Str) : Obj :=
  if k = str "__proto__" then store
  else if store.any (fun p => p.1 = k) then
    store.map (fun p => if p.1 = k then (k, v) else p)
  else store ++ [(k, v)]

/-- `Object.entries`: own enumerable string keys, array-index keys first in
ascending numeric order, then the rest in property-creation order. -/
def objEntries (store : Obj) : Obj :=
  List.insertionSort entryLE (store.filter fun p => isArrayIndex p.1)
    ++ store.filter fun p => !isArrayIndex p.1

/-- `Object.keys`: the keys in enumeration order. -/
def objKeys (store : Obj) : List Str := (objEntries store).map Prod.fst

/-- Property lookup `store[k]` (own data properties). -/
def lookupObj (k : Str) : Obj → Option (List Str)
  | [] => none
  | e :: rest => if e.1 = k then some e.2 else lookupObj k rest

/-- One clause's tokens, per the source: `pair.split(" ").map(v => v.trim())`. -/
def tokenizeClause (p : Str) : List Str := (splitOnChar ' ' p).map trim

/-- Insert one clause into the directive set: first token is the name, the
rest are the values (`const [directive, ...values] = ...`). The token list
is never empty, so the fallback branch is unreachable. -/
def insertClause (store : Obj) (p : Str) : Obj :=
  match tokenizeClause p with
  | [] => store
  | d :: vs => objInsert store d vs

/-- The clauses the parser keeps: split the policy on `";"`, trim each
piece, drop the pieces that became empty. -/
def clausesOf (s : Str) : List Str :=
  ((splitOnChar ';' s).map trim).filter (fun d => d ≠ [])

/-- `deserializeCSP` (getcsp.js:45-58): parse a policy string into the
directive set. -/
def deserializeCSP (s : Str) : Obj := (clausesOf s).foldl insertClause []

/-- `serializeCSP` (getcsp.js:66-70): render each entry of
`Object.entries` as `` `${key} ${values.join(" ")}` `` and join the
renderings with `"; "`. -/
def serializeCSP (store : Obj) : Str :=
  joinSep (str "; ")
    ((objEntries store).map (fun e => e.1 ++ ' ' :: joinSep [' '] e.2))

/-- JavaScript `String.prototype.toUpperCase` (ASCII part). -/
def toUpper (s : Str) : Str := s.map Char.toUpper

/-- Longest prefix of decimal digits as a number; `none` when there is no
digit. -/
def takeDigits (l : Str) : Option Nat :=
  match l.takeWhile Char.isDigit with
  | [] => none
  | ds => some (ds.foldl (fun a c => a * 10 + digitVal c) 0)

/-- Hexadecimal digit characters. -/
def isHexDigitChar (c : Char) : Bool :=
  c.isDigit || ('a' ≤ c && c ≤ 'f') || ('A' ≤ c && c ≤ 'F')

/-- The value of a hexadecimal digit character. -/
def hexVal (c : Char) : Nat :=
  if c.isDigit then c.toNat - 48
  else if 'a' ≤ c then c.toNat - 87
  else c.toNat - 55

/-- Longest prefix of hexadecimal digits as a number; `none` when there is
no hex digit. -/
def takeHexDigits (l : Str) : Option Nat :=
  match l.takeWhile isHexDigitChar with
  | [] => none
  | ds => some (ds.foldl (fun a c => a * 16 + hexVal c) 0)

/-- Digits of the unsigned part after the optional `0x`/`0X` prefix. -/
def parseUnsigned (l : Str) : Option Nat :=
  match l with
  | '0' :: x :: rest =>
    if x = 'x' ∨ x = 'X' then takeHexDigits rest else takeDigits l
  | _ => takeDigits l

/-- JavaScript `parseInt(s)` with no radix argument: skip leading
whitespace, read an optional sign, accept a `0x` hexadecimal prefix,
and parse the longest prefix of digits; `none` is `NaN`. The value is
modelled exactly (JavaScript rounds to a double only beyond 2^53, far
above any reachable directive count). -/
def parseIntJS (s : Str) : Option Int :=
  match s.dropWhile isWS with
  | '-' :: rest => (parseUnsigned rest).map (fun n => -(n : Int))
  | '+' :: rest => (parseUnsigned rest).map (fun n => (n : Int))
  | rest => (parseUnsigned rest).map (fun n => (n : Int))

/-- The editor's interaction states (§4.3 of the specification): `MENU`
prompts for a command; `EDIT_VALUE k` awaits replacement values for the
directive named `k`; `ADD_NAME` awaits a new directive; `TERMINATED o`
ended the session, with `o` the printed policy on the `P` path and `none`
on the `Q` path. -/
inductive Mode where
  | MENU : Mode
  | EDIT_VALUE : Str → Mode
  | ADD_NAME : Mode
  | TERMINATED : Option Str → Mode
deriving DecidableEq

/-- The notices the editor can show in reaction to one input line. -/
inductive Notice where
  | invalidSelection : Notice
  | invalidDirective : Notice
deriving DecidableEq

/-- The editor's state: the directive set, the interaction mode, and the
notice produced by the last step, if any. -/
structure EditorState where
  directives : Obj
  mode : Mode
  notice : Option Notice
deriving DecidableEq

/-- One input line consumed at `MENU` (`editCSP`, getcsp.js:94-135):
`P`/`A`/`Q` case-insensitively dispatch; otherwise
`parseInt(answer) - 1` is checked against `Object.keys(directives)` and
either selects a directive for editing or leaves an invalid-selection
notice. -/
def stepMenu (D : Obj) (answer : Str) : EditorState :=
  if toUpper answer = str "P" then ⟨D, .TERMINATED (some (serializeCSP D)), none⟩
  else if toUpper answer = str "A" then ⟨D, .ADD_NAME, none⟩
  else if toUpper answer = str "Q" then ⟨D, .TERMINATED none, none⟩
  else
    match parseIntJS answer with
    | none => ⟨D, .MENU, some .invalidSelection⟩
    | some n =>
      let idx : Int := n - 1
      let keys := objKeys D
      if 0 ≤ idx ∧ idx < (keys.length : Int) then
        ⟨D, .EDIT_VALUE (keys.getD idx.toNat []), none⟩
      else ⟨D, .MENU, some .invalidSelection⟩

/-- One input line consumed at `EDIT_VALUE` (getcsp.js:122-130): the line
is split on `" "`, empty tokens are filtered out, and the tokens replace
the chosen directive's values wholesale. -/
def stepEdit (D : Obj) (k : Str) (newValue : Str) : EditorState :=
  ⟨objInsert D k ((splitOnChar ' ' newValue).filter (fun v => v ≠ [])), .MENU, none⟩

/-- One input line consumed at `ADD_NAME` (`addDirective`,
getcsp.js:144-158): the line is split on `" "` with empty tokens filtered
out; no token means an invalid directive (re-prompt), otherwise the first
token names the directive and the rest are its values. -/
def stepAdd (D : Obj) (input : Str) : EditorState :=
  match (splitOnChar ' ' input).filter (fun v => v ≠ []) with
  | [] => ⟨D, .ADD_NAME, some .invalidDirective⟩
  | d :: vs => ⟨objInsert D d vs, .MENU, none⟩

/-- The editor's transition on one line of input. `TERMINATED` is
terminal. -/
def edStep (st : EditorState) (input : Str) : EditorState :=
  match st.mode with
  | .MENU => stepMenu st.directives input
  | .EDIT_VALUE k => stepEdit st.directives k input
  | .ADD_NAME => stepAdd st.directives input
  | .TERMINATED _ => st

/-! ### Lemmas about `trim` -/

theorem dropWhile_eq_self_of_head {p : Char → Bool} {s : Str}
    (h : ∀ c, s.head? = some c → p c = false) : s.dropWhile p = s := by
  cases s with
  | nil => rfl
  | cons a t => simp [List.dropWhile_cons, h a rfl]

theorem head_false_of_dropWhile {p : Char → Bool} {s : Str} {c : Char}
    (h : (s.dropWhile p).head? = some c) : p c = false := by
  induction s with
  | nil => simp [List.dropWhile] at h
  | cons a t ih =>
    by_cases hpa : p a = true
    · rw [List.dropWhile_cons, if_pos hpa] at h
      exact ih h
    · rw [List.dropWhile_cons, if_neg hpa, List.head?_cons, Option.some.injEq] at h
      subst h
      exact Bool.eq_false_iff.mpr hpa

theorem mem_dropWhile_of_mem {p : Char → Bool} {s : Str} {x : Char}
    (hx : x ∈ s) (hpx : p x = false) : x ∈ s.dropWhile p := by
  induction s with
  | nil => cases hx
  | cons a t ih =>
    by_cases hpa : p a = true
    · rw [List.dropWhile_cons, if_pos hpa]
      rcases List.mem_cons.mp hx with rfl | hx'
      · rw [hpa] at hpx; cases hpx
      · exact ih hx'
    · rw [List.dropWhile_cons, if_neg hpa]
      exact hx

theorem trim_nil : trim [] = [] := rfl

theorem trim_cons_ws {c : Char} {s : Str} (h : isWS c = true) :
    trim (c :: s) = trim s := by
  simp [trim, List.dropWhile_cons, h]

theorem trim_eq_self {s : Str}
    (h1 : ∀ c, s.head? = some c → isWS c = false)
    (h2 : ∀ c, s.getLast? = some c → isWS c = false) : trim s = s := by
  have e1 : s.dropWhile isWS = s := dropWhile_eq_self_of_head h1
  have e2 : s.reverse.dropWhile isWS = s.reverse := by
    refine dropWhile_eq_self_of_head (fun c hc => h2 c ?_)
    rwa [List.head?_reverse] at hc
  rw [trim, e1, e2, List.reverse_reverse]

theorem mem_trim {s : Str} {x : Char} (h : x ∈ trim s) : x ∈ s := by
  rw [trim, List.mem_reverse] at h
  have h2 := (List.dropWhile_sublist isWS).subset h
  rw [List.mem_reverse] at h2
  exact (List.dropWhile_sublist isWS).subset h2

theorem trim_ne_nil {s : Str} {x : Char} (hx : x ∈ s) (h : isWS x = false) :
    trim s ≠ [] := by
  have m1 : x ∈ s.dropWhile isWS := mem_dropWhile_of_mem hx h
  have m2 : x ∈ (s.dropWhile isWS).reverse.dropWhile isWS :=
    mem_dropWhile_of_mem (List.mem_reverse.mpr m1) h
  rw [trim]
  intro hnil
  rw [List.reverse_eq_nil_iff] at hnil
  rw [hnil] at m2
  cases m2

theorem trim_head_false {s : Str} {c : Char}
    (h : (trim s).head? = some c) : isWS c = false := by
  by_cases hnil : trim s = []
  · rw [hnil] at h; cases h
  · set A := s.dropWhile isWS with hA
    set B := A.reverse.dropWhile isWS with hB
    have hsuf : B <:+ A.reverse := List.dropWhile_suffix isWS
    have hpre : B.reverse <+: A := by
      rw [← List.reverse_suffix, List.reverse_reverse]
      exact hsuf
    have htrim : trim s = B.reverse := rfl
    rw [htrim] at h hnil
    obtain ⟨t, ht⟩ := hpre
    have hAh : A.head? = some c := by
      rw [← ht]
      cases hBr : B.reverse with
      | nil => exact absurd hBr hnil
      | cons y ys =>
        rw [hBr] at h
        rw [List.head?_cons, Option.some.injEq] at h
        subst h
        rfl
    exact head_false_of_dropWhile hAh

theorem trim_getLast_false {s : Str} {c : Char}
    (h : (trim s).getLast? = some c) : isWS c = false := by
  rw [trim, ← List.head?_reverse, List.reverse_reverse] at h
  exact head_false_of_dropWhile h

theorem trim_idem (s : Str) : trim (trim s) = trim s :=
  trim_eq_self (fun _ h => trim_head_false h) (fun _ h => trim_getLast_false h)

theorem trim_ne_nil_iff {s : Str} : trim s ≠ [] ↔ ∃ x ∈ s, isWS x = false := by
  constructor
  · intro h
    cases hts : trim s with
    | nil => exact absurd hts h
    | cons y ys =>
      refine ⟨y, mem_trim (hts ▸ List.mem_cons_self y ys), ?_⟩
      exact trim_head_false (by rw [hts, List.head?_cons])
  · rintro ⟨x, hx, hxw⟩
    exact trim_ne_nil hx hxw

theorem trim_append_ws {s : Str} {c : Char} (hc : isWS c = true) :
    trim (s ++ [c]) = trim s := by
  rw [trim, trim, List.dropWhile_append]
  by_cases hemp : (s.dropWhile isWS).isEmpty = true
  · rw [if_pos hemp]
    rw [List.isEmpty_iff] at hemp
    rw [hemp]
    simp [List.dropWhile_cons, List.dropWhile_nil, hc]
  · rw [if_neg hemp]
    rw [List.reverse_append]
    simp only [List.reverse_cons, List.reverse_nil, List.nil_append, List.singleton_append]
    rw [List.dropWhile_cons, if_pos hc]

/-! ### Lemmas about `splitCore` / `splitOnChar` -/

theorem splitOnChar_ne_nil (sep : Char) (s : Str) : splitOnChar sep s ≠ [] := by
  simp [splitOnChar]

theorem splitCore_cons_sep (sep : Char) (s : Str) :
    splitCore sep (sep :: s) = ([], (splitCore sep s).1 :: (splitCore sep s).2) := by
  simp [splitCore]

theorem splitCore_cons_ne {sep c : Char} (s : Str) (h : c ≠ sep) :
    splitCore sep (c :: s) = (c :: (splitCore sep s).1, (splitCore sep s).2) := by
  simp [splitCore, h]

theorem mem_splitCore (sep : Char) (s : Str) :
    (∀ x ∈ (splitCore sep s).1, x ∈ s ∧ x ≠ sep) ∧
    (∀ p ∈ (splitCore sep s).2, ∀ x ∈ p, x ∈ s ∧ x ≠ sep) := by
  induction s with
  | nil => exact ⟨fun x hx => absurd hx (List.not_mem_nil x), fun p hp => absurd hp (List.not_mem_nil p)⟩
  | cons a t ih =>
    by_cases ha : a = sep
    · subst ha
      rw [splitCore_cons_sep]
      refine ⟨fun x hx => absurd hx (List.not_mem_nil x), fun p hp x hx => ?_⟩
      rcases List.mem_cons.mp hp with rfl | hp'
      · exact ⟨List.mem_cons_of_mem _ (ih.1 x hx).1, (ih.1 x hx).2⟩
      · exact ⟨List.mem_cons_of_mem _ (ih.2 p hp' x hx).1, (ih.2 p hp' x hx).2⟩
    · rw [splitCore_cons_ne t ha]
      refine ⟨fun x hx => ?_, fun p hp x hx => ?_⟩
      · rcases List.mem_cons.mp hx with rfl | hx'
        · exact ⟨List.mem_cons_self _ _, ha⟩
        · exact ⟨List.mem_cons_of_mem _ (ih.1 x hx').1, (ih.1 x hx').2⟩
      · exact ⟨List.mem_cons_of_mem _ (ih.2 p hp x hx).1, (ih.2 p hp x hx).2⟩

theorem mem_splitOnChar {sep : Char} {s : Str} {p : Str} (hp : p ∈ splitOnChar sep s) :
    ∀ x ∈ p, x ∈ s ∧ x ≠ sep := by
  rcases List.mem_cons.mp hp with rfl | hp'
  · exact (mem_splitCore sep s).1
  · exact (mem_splitCore sep s).2 p hp'

theorem splitCore_no_sep {sep : Char} {p : Str} (h : sep ∉ p) :
    splitCore sep p = (p, []) := by
  induction p with
  | nil => rfl
  | cons a t ih =>
    have ha : a ≠ sep := fun he => h (he ▸ List.mem_cons_self a t)
    rw [splitCore_cons_ne t ha, ih (fun ht => h (List.mem_cons_of_mem a ht))]

theorem splitCore_append_sep {sep : Char} {p t : Str} (h : sep ∉ p) :
    splitCore sep (p ++ sep :: t) =
      (p, (splitCore sep t).1 :: (splitCore sep t).2) := by
  induction p with
  | nil => simpa using splitCore_cons_sep sep t
  | cons a q ih =>
    have ha : a ≠ sep := fun he => h (he ▸ List.mem_cons_self a q)
    rw [List.cons_append, splitCore_cons_ne _ ha,
      ih (fun ht => h (List.mem_cons_of_mem a ht))]

/-! ### Lemmas about `joinSep` -/

theorem joinSep_cons_of_ne {sep : Str} {x : Str} {xs : List Str} (h : xs ≠ []) :
    joinSep sep (x :: xs) = x ++ sep ++ joinSep sep xs := by
  cases xs with
  | nil => exact absurd rfl h
  | cons y ys => rfl

theorem mem_joinSep {sep : Str} {ps : List Str} {x : Char}
    (h : x ∈ joinSep sep ps) : x ∈ sep ∨ ∃ p ∈ ps, x ∈ p := by
  induction ps with
  | nil => cases h
  | cons p ps ih =>
    cases ps with
    | nil =>
      right
      exact ⟨p, List.mem_cons_self _ _, h⟩
    | cons q qs =>
      rw [joinSep_cons_of_ne (List.cons_ne_nil q qs)] at h
      rcases List.mem_append.mp h with h1 | h2
      · rcases List.mem_append.mp h1 with hp | hsep
        · exact Or.inr ⟨p, List.mem_cons_self _ _, hp⟩
        · exact Or.inl hsep
      · rcases ih h2 with hs | ⟨r, hr, hx⟩
        · exact Or.inl hs
        · exact Or.inr ⟨r, List.mem_cons_of_mem _ hr, hx⟩

theorem head?_joinSep {sep : Str} {p : Str} {ps : List Str} (hp : p ≠ []) :
    (joinSep sep (p :: ps)).head? = p.head? := by
  cases ps with
  | nil => rfl
  | cons q qs =>
    rw [joinSep_cons_of_ne (List.cons_ne_nil q qs), List.append_assoc,
      List.head?_append, List.head?_eq_head hp]
    rfl

theorem joinSep_ne_nil {sep : Str} {p : Str} {ps : List Str} (hp : p ≠ []) :
    joinSep sep (p :: ps) ≠ [] := by
  intro h
  have h2 : (joinSep sep (p :: ps)).head? = p.head? := head?_joinSep hp
  rw [h, List.head?_eq_head hp] at h2
  cases h2

theorem getLast?_joinSep {sep : Str} {v : Str} (l : List Str) (hv : v ≠ []) :
    (joinSep sep (l ++ [v])).getLast? = v.getLast? := by
  induction l with
  | nil => rfl
  | cons x l ih =>
    have hne : l ++ [v] ≠ [] := by simp
    rw [List.cons_append, joinSep_cons_of_ne hne, List.getLast?_append,
      List.getLast?_append, ih]
    rw [List.getLast?_eq_getLast v hv]
    rfl

theorem splitOnChar_joinSep {sep : Char} {ps : List Str}
    (h : ∀ p ∈ ps, sep ∉ p) (hne : ps ≠ []) :
    splitOnChar sep (joinSep [sep] ps) = ps := by
  induction ps with
  | nil => exact absurd rfl hne
  | cons p ps ih =>
    cases ps with
    | nil =>
      show splitOnChar sep p = [p]
      rw [splitOnChar, splitCore_no_sep (h p (List.mem_cons_self _ _))]
    | cons q qs =>
      rw [joinSep_cons_of_ne (List.cons_ne_nil q qs)]
      have hp : sep ∉ p := h p (List.mem_cons_self _ _)
      rw [List.append_assoc, List.singleton_append, splitOnChar,
        splitCore_append_sep hp]
      have := ih (fun r hr => h r (List.mem_cons_of_mem _ hr)) (List.cons_ne_nil q qs)
      rw [splitOnChar] at this
      rw [this]

theorem joinSep_cons_head {sep : Str} (y : Char) (q : Str) (ps : List Str) :
    joinSep sep ((y :: q) :: ps) = y :: joinSep sep (q :: ps) := by
  cases ps <;> rfl

theorem joinSep_two_char (x y : Char) (rs : List Str) : ∀ r : Str,
    joinSep [x, y] (r :: rs) = joinSep [x] (r :: rs.map (fun t => y :: t)) := by
  induction rs with
  | nil => intro r; rfl
  | cons q qs ih =>
    intro r
    rw [joinSep_cons_of_ne (List.cons_ne_nil q qs), ih q, List.map_cons,
      joinSep_cons_of_ne (List.cons_ne_nil (y :: q) (qs.map fun t => y :: t)),
      joinSep_cons_head]
    simp [List.append_assoc]

/-! ### Tokens produced by the parser -/

theorem getLast?_cons_of_ne {α : Type} {x : α} {l : List α} (h : l ≠ []) :
    (x :: l).getLast? = l.getLast? := by
  cases l with
  | nil => exact absurd rfl h
  | cons b t => exact List.getLast?_cons_cons

theorem splitOnChar_cons_sep (sep : Char) (s : Str) :
    splitOnChar sep (sep :: s) = [] :: splitOnChar sep s := by
  simp [splitOnChar, splitCore_cons_sep]

theorem splitOnChar_cons_ne {sep c : Char} (s : Str) (h : c ≠ sep) :
    splitOnChar sep (c :: s) =
      (c :: (splitCore sep s).1) :: (splitCore sep s).2 := by
  simp [splitOnChar, splitCore_cons_ne s h]

/-- Every token of a clause is a fixed point of `trim` and contains
neither `';'` (inherited from the clause) nor `' '` (the split
separator). -/
theorem tokenizeClause_good {p : Str} (hsemi : ';' ∉ p) :
    ∀ t ∈ tokenizeClause p, trim t = t ∧ ';' ∉ t ∧ ' ' ∉ t := by
  intro t ht
  rw [tokenizeClause] at ht
  obtain ⟨q, hq, rfl⟩ := List.mem_map.mp ht
  refine ⟨trim_idem q, ?_, ?_⟩
  · intro hx
    exact hsemi ((mem_splitOnChar hq) ';' (mem_trim hx)).1
  · intro hx
    exact ((mem_splitOnChar hq) ' ' (mem_trim hx)).2 rfl

/-- The first token of a trimmed nonempty clause — the directive name — is
nonempty. -/
theorem tokenizeClause_head_ne_nil {p : Str} (htrim : trim p = p) (hne : p ≠ []) :
    ∀ t, (tokenizeClause p).head? = some t → t ≠ [] := by
  cases p with
  | nil => exact absurd rfl hne
  | cons c p' =>
    intro t ht
    have hc : isWS c = false :=
      trim_head_false (show (trim (c :: p')).head? = some c by rw [htrim]; rfl)
    have hcs : c ≠ ' ' := by
      intro h
      subst h
      simp [isWS] at hc
    rw [tokenizeClause, splitOnChar_cons_ne p' hcs] at ht
    rw [List.map_cons, List.head?_cons, Option.some.injEq] at ht
    subst ht
    exact trim_ne_nil (List.mem_cons_self _ _) hc

/-- Prefixing a character onto the first token keeps the last trimmed
token nonempty. -/
theorem getLast_map_trim_cons_aux (x : Str) (l : List Str) (a : Char)
    (h : ((x :: l).map trim).getLast? ≠ some []) :
    (((a :: x) :: l).map trim).getLast? ≠ some [] := by
  cases l with
  | nil =>
    simp only [List.map_cons, List.map_nil, List.getLast?_singleton] at h ⊢
    intro hbad
    rw [Option.some.injEq] at hbad
    have h3 : trim x ≠ [] := by
      intro he
      exact h (by rw [he])
    obtain ⟨y, hy, hyw⟩ := trim_ne_nil_iff.mp h3
    exact trim_ne_nil (List.mem_cons_of_mem a hy) hyw hbad
  | cons q qs =>
    simp only [List.map_cons] at h ⊢
    rw [getLast?_cons_of_ne (by simp)] at h
    rw [getLast?_cons_of_ne (by simp)]
    exact h

/-- When a string ends in a non-whitespace character, the last of its
trimmed space-split tokens is nonempty. -/
theorem tokens_getLast_ne_nil : ∀ (s : Str) (c : Char), s.getLast? = some c →
    isWS c = false → ((splitOnChar ' ' s).map trim).getLast? ≠ some [] := by
  intro s
  induction s with
  | nil => intro c hc; cases hc
  | cons a t ih =>
    intro c hc hw
    cases t with
    | nil =>
      rw [List.getLast?_singleton, Option.some.injEq] at hc
      rw [hc]
      have hcs : c ≠ ' ' := by
        intro h
        subst h
        simp [isWS] at hw
      rw [splitOnChar_cons_ne [] hcs]
      intro hbad
      simp only [splitCore, List.map_cons, List.map_nil,
        List.getLast?_singleton, Option.some.injEq] at hbad
      exact trim_ne_nil (List.mem_cons_self c []) hw hbad
    | cons b t' =>
      have hc' : (b :: t').getLast? = some c := by
        rw [List.getLast?_cons_cons] at hc
        exact hc
      by_cases ha : a = ' '
      · subst ha
        rw [splitOnChar_cons_sep, List.map_cons,
          getLast?_cons_of_ne (by simp [splitOnChar])]
        exact ih c hc' hw
      · rw [splitOnChar_cons_ne _ ha]
        have ihx := ih c hc' hw
        rw [splitOnChar] at ihx
        exact getLast_map_trim_cons_aux _ _ a ihx

/-! ### The store invariant established by the parser -/

/-- A token as the parser stores it: a fixed point of `trim` containing
neither the clause separator nor a space. -/
def goodTok (t : Str) : Prop := trim t = t ∧ ';' ∉ t ∧ ' ' ∉ t

/-- An entry as the parser stores it: a nonempty good name, good values,
and a nonempty last value (clauses are trimmed, so a trailing empty token
cannot arise). -/
def goodPair (e : Str × List Str) : Prop :=
  goodTok e.1 ∧ e.1 ≠ [] ∧ (∀ v ∈ e.2, goodTok v) ∧ e.2.getLast? ≠ some []

/-- The directive-set invariant: distinct keys, good entries, and no
`__proto__` key (assigning it never creates an own property). -/
def Inv (store : Obj) : Prop :=
  (store.map Prod.fst).Nodup ∧ (∀ e ∈ store, goodPair e) ∧
    ∀ e ∈ store, e.1 ≠ str "__proto__"

theorem Inv_nil : Inv [] :=
  ⟨List.nodup_nil, fun e he => absurd he (List.not_mem_nil e),
    fun e he => absurd he (List.not_mem_nil e)⟩

theorem map_fst_replace (store : Obj) (k : Str) (vs : List Str) :
    (store.map (fun p => if p.1 = k then (k, vs) else p)).map Prod.fst =
      store.map Prod.fst := by
  rw [List.map_map]
  apply List.map_congr_left
  intro e he
  by_cases hek : e.1 = k
  · simp [hek]
  · simp [hek]

theorem map_fst_objInsert (store : Obj) (k : Str) (v : List Str) :
    (objInsert store k v).map Prod.fst =
      if k = str "__proto__" ∨ k ∈ store.map Prod.fst then store.map Prod.fst
      else store.map Prod.fst ++ [k] := by
  rw [objInsert]
  by_cases hp : k = str "__proto__"
  · rw [if_pos hp, if_pos (Or.inl hp)]
  · rw [if_neg hp]
    by_cases hm : k ∈ store.map Prod.fst
    · have hany : (store.any fun p => p.1 = k) = true := by
        rw [List.any_eq_true]
        obtain ⟨e, he, hek⟩ := List.mem_map.mp hm
        exact ⟨e, he, by simp [hek]⟩
      rw [if_pos hany, if_pos (Or.inr hm), map_fst_replace]
    · have hany : ¬(store.any fun p => p.1 = k) = true := by
        rw [List.any_eq_true]
        rintro ⟨e, he, hek⟩
        rw [decide_eq_true_eq] at hek
        exact hm (List.mem_map.mpr ⟨e, he, hek⟩)
      rw [if_neg hany, if_neg (by rintro (h | h) <;> [exact hp h; exact hm h]),
        List.map_append]
      rfl

theorem lookup_map_replace {store : Obj} {k k' : Str} {v : List Str} (h : k' ≠ k) :
    lookupObj k' (store.map (fun p => if p.1 = k then (k, v) else p)) =
      lookupObj k' store := by
  induction store with
  | nil => rfl
  | cons e rest ih =>
    by_cases hek : e.1 = k
    · simp only [List.map_cons, if_pos hek, lookupObj]
      rw [if_neg (show ¬((k, v).1 = k') from fun hh => h hh.symm),
        if_neg (show ¬(e.1 = k') from fun hh => h (hh ▸ hek))]
      exact ih
    · simp only [List.map_cons, if_neg hek, lookupObj]
      by_cases he' : e.1 = k'
      · rw [if_pos he', if_pos he']
      · rw [if_neg he', if_neg he']
        exact ih

theorem lookup_map_self (store : Obj) (k : Str) (v : List Str)
    (hsome : ∃ e ∈ store, e.1 = k) :
    lookupObj k (store.map (fun p => if p.1 = k then (k, v) else p)) = some v := by
  induction store with
  | nil =>
    obtain ⟨e, he, _⟩ := hsome
    cases he
  | cons e rest ih =>
    by_cases hek : e.1 = k
    · simp only [List.map_cons, if_pos hek, lookupObj]
      simp
    · simp only [List.map_cons, if_neg hek, lookupObj, if_neg hek]
      apply ih
      obtain ⟨x, hx, hxk⟩ := hsome
      rcases List.mem_cons.mp hx with rfl | hx'
      · exact absurd hxk hek
      · exact ⟨x, hx', hxk⟩

theorem lookup_append_key (store : Obj) (k : Str) (v : List Str)
    (hall : ∀ e ∈ store, ¬(e.1 = k)) : lookupObj k (store ++ [(k, v)]) = some v := by
  induction store with
  | nil => simp [lookupObj]
  | cons e rest ih =>
    rw [List.cons_append]
    simp only [lookupObj]
    rw [if_neg (hall e (List.mem_cons_self e rest))]
    exact ih (fun x hx => hall x (List.mem_cons_of_mem e hx))

theorem lookup_append_other (store : Obj) {k k' : Str} (v : List Str) (h : k' ≠ k) :
    lookupObj k' (store ++ [(k, v)]) = lookupObj k' store := by
  induction store with
  | nil =>
    simp only [List.nil_append, lookupObj]
    rw [if_neg (show ¬((k, v).1 = k') from fun hh => h hh.symm)]
  | cons e rest ih =>
    rw [List.cons_append]
    simp only [lookupObj]
    by_cases he' : e.1 = k'
    · rw [if_pos he', if_pos he']
    · rw [if_neg he', if_neg he']
      exact ih

/-- Assigning an existing or fresh key, then reading it back, yields the
assigned value (for any key other than `__proto__`). -/
theorem lookup_objInsert_self {store : Obj} {k : Str} {v : List Str}
    (hp : k ≠ str "__proto__") : lookupObj k (objInsert store k v) = some v := by
  rw [objInsert, if_neg hp]
  by_cases hany : (store.any fun p => p.1 = k) = true
  · rw [if_pos hany]
    apply lookup_map_self
    simpa using hany
  · rw [if_neg hany]
    apply lookup_append_key
    intro e he hek
    apply hany
    rw [List.any_eq_true]
    exact ⟨e, he, by simp [hek]⟩

/-- Assigning key `k` does not change the value read at any other key. -/
theorem lookup_objInsert_other {store : Obj} {k k' : Str} {v : List Str}
    (h : k' ≠ k) : lookupObj k' (objInsert store k v) = lookupObj k' store := by
  rw [objInsert]
  by_cases hp : k = str "__proto__"
  · rw [if_pos hp]
  · rw [if_neg hp]
    by_cases hany : (store.any fun p => p.1 = k) = true
    · rw [if_pos hany]
      exact lookup_map_replace h
    · rw [if_neg hany]
      exact lookup_append_other store v h

theorem objInsert_inv {store : Obj} {k : Str} {vs : List Str} (hInv : Inv store)
    (hgk : goodTok k) (hk : k ≠ []) (hgv : ∀ v ∈ vs, goodTok v)
    (hlast : vs.getLast? ≠ some []) : Inv (objInsert store k vs) := by
  obtain ⟨hnd, hgood, hproto⟩ := hInv
  rw [objInsert]
  by_cases hp : k = str "__proto__"
  · rw [if_pos hp]
    exact ⟨hnd, hgood, hproto⟩
  · rw [if_neg hp]
    by_cases hany : (store.any fun p => p.1 = k) = true
    · rw [if_pos hany]
      refine ⟨?_, ?_, ?_⟩
      · rw [map_fst_replace]
        exact hnd
      · intro e he
        obtain ⟨x, hx, rfl⟩ := List.mem_map.mp he
        by_cases hxk : x.1 = k
        · rw [if_pos hxk]
          exact ⟨hgk, hk, hgv, hlast⟩
        · rw [if_neg hxk]
          exact hgood x hx
      · intro e he
        obtain ⟨x, hx, rfl⟩ := List.mem_map.mp he
        by_cases hxk : x.1 = k
        · rw [if_pos hxk]
          exact hp
        · rw [if_neg hxk]
          exact hproto x hx
    · rw [if_neg hany]
      refine ⟨?_, ?_, ?_⟩
      · rw [List.map_append, List.nodup_append]
        refine ⟨hnd, List.nodup_singleton k, ?_⟩
        intro a ha hb
        rw [List.map_singleton, List.mem_singleton] at hb
        subst hb
        apply hany
        obtain ⟨x, hx, hxk⟩ := List.mem_map.mp ha
        rw [List.any_eq_true]
        exact ⟨x, hx, by simp [hxk]⟩
      · intro e he
        rcases List.mem_append.mp he with he' | he'
        · exact hgood e he'
        · rw [List.mem_singleton] at he'
          subst he'
          exact ⟨hgk, hk, hgv, hlast⟩
      · intro e he
        rcases List.mem_append.mp he with he' | he'
        · exact hproto e he'
        · rw [List.mem_singleton] at he'
          subst he'
          exact hp

theorem clausesOf_facts {s p : Str} (hp : p ∈ clausesOf s) :
    trim p = p ∧ p ≠ [] ∧ ';' ∉ p := by
  rw [clausesOf] at hp
  obtain ⟨hmem, hne⟩ := List.mem_filter.mp hp
  obtain ⟨q, hq, rfl⟩ := List.mem_map.mp hmem
  refine ⟨trim_idem q, by simpa using hne, fun hsemi => ?_⟩
  exact ((mem_splitOnChar hq) ';' (mem_trim hsemi)).2 rfl

theorem insertClause_inv {store : Obj} {p : Str} (hInv : Inv store)
    (htrim : trim p = p) (hne : p ≠ []) (hsemi : ';' ∉ p) :
    Inv (insertClause store p) := by
  rw [insertClause]
  cases htok : tokenizeClause p with
  | nil => exact hInv
  | cons d vs =>
    apply objInsert_inv hInv
    · exact tokenizeClause_good hsemi d (htok ▸ List.mem_cons_self d vs)
    · exact tokenizeClause_head_ne_nil htrim hne d (by rw [htok]; rfl)
    · intro v hv
      exact tokenizeClause_good hsemi v (htok ▸ List.mem_cons_of_mem d hv)
    · have hlastp : p.getLast? = some (p.getLast hne) := List.getLast?_eq_getLast p hne
      have hw : isWS (p.getLast hne) = false :=
        trim_getLast_false (by rw [htrim]; exact hlastp)
      have hmain := tokens_getLast_ne_nil p _ hlastp hw
      rw [show (splitOnChar ' ' p).map trim = tokenizeClause p from rfl, htok] at hmain
      cases hvs : vs with
      | nil => simp
      | cons w ws =>
        rw [hvs] at hmain
        rw [List.getLast?_cons_cons] at hmain
        exact hmain

theorem parse_inv_fold : ∀ (ps : List Str) (store : Obj), Inv store →
    (∀ p ∈ ps, trim p = p ∧ p ≠ [] ∧ ';' ∉ p) →
    Inv (ps.foldl insertClause store) := by
  intro ps
  induction ps with
  | nil =>
    intro store h _
    exact h
  | cons p ps ih =>
    intro store h hps
    rw [List.foldl_cons]
    obtain ⟨h1, h2, h3⟩ := hps p (List.mem_cons_self p ps)
    exact ih _ (insertClause_inv h h1 h2 h3)
      (fun q hq => hps q (List.mem_cons_of_mem p hq))

/-- The parser establishes the directive-set invariant on every input. -/
theorem parse_inv (s : Str) : Inv (deserializeCSP s) := by
  rw [deserializeCSP]
  exact parse_inv_fold _ _ Inv_nil (fun p hp => clausesOf_facts hp)

/-! ### Lemmas about `objEntries` -/

theorem objEntries_perm (store : Obj) : (objEntries store).Perm store := by
  rw [objEntries]
  exact ((List.perm_insertionSort entryLE _).append (List.Perm.refl _)).trans
    (List.filter_append_perm _ store)

theorem Inv_objEntries {store : Obj} (h : Inv store) : Inv (objEntries store) := by
  obtain ⟨hnd, hgood, hproto⟩ := h
  have hperm := objEntries_perm store
  refine ⟨((hperm.map Prod.fst).nodup_iff).mpr hnd, ?_, ?_⟩
  · intro e he
    exact hgood e (hperm.mem_iff.mp he)
  · intro e he
    exact hproto e (hperm.mem_iff.mp he)

theorem objEntries_idem (store : Obj) :
    objEntries (objEntries store) = objEntries store := by
  have hA : ∀ p ∈ List.insertionSort entryLE
      (store.filter fun p => isArrayIndex p.1), isArrayIndex p.1 = true := by
    intro p hp
    exact (List.mem_filter.mp ((List.perm_insertionSort entryLE _).mem_iff.mp hp)).2
  have hB : ∀ p ∈ store.filter (fun p => !isArrayIndex p.1),
      ¬(isArrayIndex p.1 = true) := by
    intro p hp
    have h2 := (List.mem_filter.mp hp).2
    rw [Bool.not_eq_true'] at h2
    rw [h2]
    exact Bool.false_ne_true
  have h3 : List.filter (fun p => !isArrayIndex p.1)
      (List.insertionSort entryLE (store.filter fun p => isArrayIndex p.1)) = [] := by
    rw [List.filter_eq_nil_iff]
    intro a ha hc
    rw [Bool.not_eq_true'] at hc
    exact absurd (hA a ha) (by rw [hc]; exact Bool.false_ne_true)
  have h4 : List.filter (fun p => !isArrayIndex p.1)
      (store.filter (fun p => !isArrayIndex p.1)) =
      store.filter (fun p => !isArrayIndex p.1) := by
    rw [List.filter_eq_self]
    intro a ha
    exact (List.mem_filter.mp ha).2
  rw [objEntries, objEntries, List.filter_append, List.filter_append,
    List.filter_eq_self.mpr hA, List.filter_eq_nil_iff.mpr hB, h3, h4,
    List.append_nil, List.nil_append,
    (List.sorted_insertionSort entryLE _).insertionSort_eq]

theorem lookup_perm {l₁ l₂ : Obj} (h : l₁.Perm l₂) (k : Str) :
    (l₁.map Prod.fst).Nodup → lookupObj k l₁ = lookupObj k l₂ := by
  induction h with
  | nil => intro _; rfl
  | cons x h ih =>
    intro hnd
    simp only [lookupObj]
    by_cases hx : x.1 = k
    · rw [if_pos hx, if_pos hx]
    · rw [if_neg hx, if_neg hx]
      apply ih
      rw [List.map_cons] at hnd
      exact (List.nodup_cons.mp hnd).2
  | swap x y l =>
    intro hnd
    simp only [lookupObj]
    by_cases hy : y.1 = k
    · by_cases hx : x.1 = k
      · exfalso
        rw [List.map_cons, List.map_cons, List.nodup_cons] at hnd
        exact hnd.1 (List.mem_cons.mpr (Or.inl (by rw [hx, hy])))
      · rw [if_pos hy, if_neg hx, if_pos hy]
    · by_cases hx : x.1 = k
      · rw [if_neg hy, if_pos hx, if_pos hx]
      · rw [if_neg hy, if_neg hx, if_neg hx, if_neg hy]
  | trans h1 h2 ih1 ih2 =>
    intro hnd
    rw [ih1 hnd, ih2 (((h1.map Prod.fst).nodup_iff).mp hnd)]

/-! ### The serializer inverts the parser -/

theorem foldl_objInsert_fresh : ∀ (ps acc : Obj),
    ((acc ++ ps).map Prod.fst).Nodup →
    (∀ e ∈ ps, e.1 ≠ str "__proto__") →
    ps.foldl (fun st e => objInsert st e.1 e.2) acc = acc ++ ps := by
  intro ps
  induction ps with
  | nil =>
    intro acc _ _
    rw [List.foldl_nil, List.append_nil]
  | cons e ps ih =>
    intro acc hnd hproto
    rw [List.foldl_cons]
    have hmem : e.1 ∉ acc.map Prod.fst := by
      rw [List.map_append, List.nodup_append] at hnd
      intro hin
      exact hnd.2.2 hin (by rw [List.map_cons]; exact List.mem_cons_self _ _)
    have hanyf : ¬(acc.any fun p => p.1 = e.1) = true := by
      intro hany
      rw [List.any_eq_true] at hany
      obtain ⟨x, hx, hxk⟩ := hany
      rw [decide_eq_true_eq] at hxk
      exact hmem (List.mem_map.mpr ⟨x, hx, hxk⟩)
    have hins : objInsert acc e.1 e.2 = acc ++ [e] := by
      rw [objInsert, if_neg (hproto e (List.mem_cons_self _ _)), if_neg hanyf]
    rw [hins, ih (acc ++ [e])
      (by rw [List.append_assoc, List.singleton_append]; exact hnd)
      (fun q hq => hproto q (List.mem_cons_of_mem e hq)),
      List.append_assoc, List.singleton_append]

/-- Trimming a rendered clause `"name value … value"` (with the
serializer's unconditional space after the name) recovers the
space-joined token list. -/
theorem trim_renderClause {e : Str × List Str} (he : goodPair e) :
    trim (e.1 ++ ' ' :: joinSep [' '] e.2) = joinSep [' '] (e.1 :: e.2) := by
  obtain ⟨k, vs⟩ := e
  obtain ⟨⟨htk, _, _⟩, hkne, hgv, hlast⟩ := he
  cases vs with
  | nil =>
    show trim (k ++ [' ']) = joinSep [' '] [k]
    rw [trim_append_ws (by rfl), htk]
    rfl
  | cons v vs' =>
    have hRHS : joinSep [' '] (k :: v :: vs') = k ++ ' ' :: joinSep [' '] (v :: vs') := by
      rw [joinSep_cons_of_ne (List.cons_ne_nil v vs'), List.append_assoc,
        List.singleton_append]
    rw [hRHS]
    set w := (v :: vs').getLast (List.cons_ne_nil v vs') with hw
    have hwlast : (v :: vs').getLast? = some w :=
      List.getLast?_eq_getLast _ (List.cons_ne_nil v vs')
    have hwne : w ≠ [] := by
      intro hnil
      exact hlast (by rw [hwlast, hnil])
    have hwmem : w ∈ v :: vs' := List.getLast_mem (List.cons_ne_nil v vs')
    have hJlast : (joinSep [' '] (v :: vs')).getLast? = w.getLast? := by
      conv_lhs => rw [← List.dropLast_append_getLast (List.cons_ne_nil v vs')]
      exact getLast?_joinSep _ hwne
    have hwgl : w.getLast? = some (w.getLast hwne) := List.getLast?_eq_getLast w hwne
    have hJne : joinSep [' '] (v :: vs') ≠ [] := by
      intro hnil
      rw [hnil] at hJlast
      rw [hwgl] at hJlast
      cases hJlast
    apply trim_eq_self
    · intro c hc
      rw [List.head?_append, List.head?_eq_head hkne,
        show (some (k.head hkne)).or ((' ' :: joinSep [' '] (v :: vs')).head?) =
          some (k.head hkne) from rfl,
        Option.some.injEq] at hc
      exact hc ▸ trim_head_false (by rw [htk]; exact List.head?_eq_head hkne)
    · intro c hc
      rw [List.getLast?_append, getLast?_cons_of_ne hJne, hJlast, hwgl] at hc
      rw [show (some (w.getLast hwne)).or (k.getLast?) = some (w.getLast hwne) from rfl,
        Option.some.injEq] at hc
      have hwtrim : trim w = w := (hgv w hwmem).1
      exact hc ▸ trim_getLast_false (by rw [hwtrim, hwgl])

theorem semi_not_mem_render {e : Str × List Str} (he : goodPair e) :
    ';' ∉ e.1 ++ ' ' :: joinSep [' '] e.2 := by
  intro h
  rcases List.mem_append.mp h with h1 | h2
  · exact he.1.2.1 h1
  · rcases List.mem_cons.mp h2 with h3 | h4
    · exact absurd h3 (by decide)
    · rcases mem_joinSep h4 with h5 | ⟨v, hv, h6⟩
      · exact absurd (List.mem_singleton.mp h5) (by decide)
      · exact (he.2.2.1 v hv).2.1 h6

/-- Splitting the serialized policy back into clauses recovers exactly the
space-joined token lists of the entries, in enumeration order. -/
theorem clausesOf_serialize {E : Obj} (h : ∀ e ∈ E, goodPair e) :
    clausesOf (joinSep (str "; ") (E.map (fun e => e.1 ++ ' ' :: joinSep [' '] e.2))) =
      E.map (fun e => joinSep [' '] (e.1 :: e.2)) := by
  cases E with
  | nil => rfl
  | cons e0 E' =>
    have hsemi : ∀ p ∈ (e0.1 ++ ' ' :: joinSep [' '] e0.2) ::
        (E'.map (fun e => e.1 ++ ' ' :: joinSep [' '] e.2)).map (fun t => ' ' :: t),
        ';' ∉ p := by
      intro p hp
      rcases List.mem_cons.mp hp with rfl | hp'
      · exact semi_not_mem_render (h e0 (List.mem_cons_self _ _))
      · obtain ⟨q, hq, rfl⟩ := List.mem_map.mp hp'
        obtain ⟨e, he, rfl⟩ := List.mem_map.mp hq
        intro hc
        rcases List.mem_cons.mp hc with hc' | hc'
        · exact absurd hc' (by decide)
        · exact semi_not_mem_render (h e (List.mem_cons_of_mem _ he)) hc'
    rw [List.map_cons, show str "; " = [';', ' '] from rfl, joinSep_two_char,
      clausesOf, splitOnChar_joinSep hsemi (List.cons_ne_nil _ _), List.map_cons,
      List.map_map, List.map_map]
    have h1 : trim (e0.1 ++ ' ' :: joinSep [' '] e0.2) = joinSep [' '] (e0.1 :: e0.2) :=
      trim_renderClause (h e0 (List.mem_cons_self _ _))
    have h2 : E'.map ((trim ∘ fun t => ' ' :: t) ∘
          fun e => e.1 ++ ' ' :: joinSep [' '] e.2) =
        E'.map (fun e => joinSep [' '] (e.1 :: e.2)) := by
      apply List.map_congr_left
      intro e he
      show trim (' ' :: (e.1 ++ ' ' :: joinSep [' '] e.2)) = _
      rw [trim_cons_ws (by decide)]
      exact trim_renderClause (h e (List.mem_cons_of_mem _ he))
    rw [h1, h2]
    have hfil : ∀ a ∈ joinSep [' '] (e0.1 :: e0.2) ::
        E'.map (fun e => joinSep [' '] (e.1 :: e.2)), (decide (a ≠ [])) = true := by
      intro a ha
      rw [decide_eq_true_eq]
      rcases List.mem_cons.mp ha with rfl | ha'
      · exact joinSep_ne_nil (h e0 (List.mem_cons_self _ _)).2.1
      · obtain ⟨e, he, rfl⟩ := List.mem_map.mp ha'
        exact joinSep_ne_nil (h e (List.mem_cons_of_mem _ he)).2.1
    rw [List.filter_eq_self.mpr hfil, List.map_cons]

/-- Parsing a rendered clause inserts exactly the original name and
values. -/
theorem insertClause_joinSep {store : Obj} {e : Str × List Str} (he : goodPair e) :
    insertClause store (joinSep [' '] (e.1 :: e.2)) = objInsert store e.1 e.2 := by
  have hns : ∀ p ∈ e.1 :: e.2, ' ' ∉ p := by
    intro p hp
    rcases List.mem_cons.mp hp with rfl | hp'
    · exact he.1.2.2
    · exact (he.2.2.1 p hp').2.2
  have htok : tokenizeClause (joinSep [' '] (e.1 :: e.2)) = e.1 :: e.2 := by
    rw [tokenizeClause, splitOnChar_joinSep hns (List.cons_ne_nil _ _),
      List.map_cons, he.1.1]
    congr 1
    calc e.2.map trim = e.2.map id := List.map_congr_left (fun v hv => (he.2.2.1 v hv).1)
      _ = e.2 := List.map_id e.2
  rw [insertClause, htok]

/-- Re-parsing the serialized policy reproduces the directive set's
entries in enumeration order. -/
theorem round_trip {store : Obj} (h : Inv store) :
    deserializeCSP (serializeCSP store) = objEntries store := by
  obtain ⟨hnd, hgood, hproto⟩ := Inv_objEntries h
  rw [deserializeCSP, show serializeCSP store = joinSep (str "; ")
      ((objEntries store).map (fun e => e.1 ++ ' ' :: joinSep [' '] e.2)) from rfl,
    clausesOf_serialize hgood, List.foldl_map]
  have hfold : ∀ (E acc : Obj), (∀ e ∈ E, goodPair e) →
      E.foldl (fun st e => insertClause st (joinSep [' '] (e.1 :: e.2))) acc =
      E.foldl (fun st e => objInsert st e.1 e.2) acc := by
    intro E
    induction E with
    | nil =>
      intro acc _
      rfl
    | cons e E ih =>
      intro acc hg
      rw [List.foldl_cons, List.foldl_cons,
        insertClause_joinSep (hg e (List.mem_cons_self _ _))]
      exact ih _ (fun q hq => hg q (List.mem_cons_of_mem e hq))
  rw [hfold _ _ hgood,
    foldl_objInsert_fresh (objEntries store) [] (by rw [List.nil_append]; exact hnd) hproto,
    List.nil_append]

/-! ### Insertion order and last-write-wins -/

/-- First-occurrence key order of a name sequence, skipping `__proto__`
(assigning it never creates an own property). -/
def specKeys (names : List Str) : List Str :=
  names.foldl (fun ks k => if k = str "__proto__" ∨ k ∈ ks then ks else ks ++ [k]) []

/-- The value list of the last clause bearing a given name. -/
def lastVal (k : Str) (ps : List (Str × List Str)) : Option (List Str) :=
  ps.foldl (fun a e => if e.1 = k then some e.2 else a) none

/-- The (name, values) pair of each kept clause, in clause order. -/
def clausePairs (s : Str) : List (Str × List Str) :=
  (clausesOf s).map (fun p => ((tokenizeClause p).headD [], (tokenizeClause p).tail))

theorem tokenizeClause_ne_nil (p : Str) : tokenizeClause p ≠ [] := by
  rw [tokenizeClause, splitOnChar]
  simp

theorem insertClause_eq (store : Obj) (p : Str) :
    insertClause store p =
      objInsert store ((tokenizeClause p).headD []) ((tokenizeClause p).tail) := by
  rw [insertClause]
  cases htok : tokenizeClause p with
  | nil => exact absurd htok (tokenizeClause_ne_nil p)
  | cons d vs => rfl

theorem foldl_congr_fun {α β : Type} (l : List β) (f g : α → β → α) (a : α)
    (h : ∀ acc x, x ∈ l → f acc x = g acc x) : l.foldl f a = l.foldl g a := by
  induction l generalizing a with
  | nil => rfl
  | cons x xs ih =>
    rw [List.foldl_cons, List.foldl_cons, h a x (List.mem_cons_self _ _)]
    exact ih _ (fun acc y hy => h acc y (List.mem_cons_of_mem x hy))

theorem deserializeCSP_eq_foldPairs (s : Str) :
    deserializeCSP s = (clausePairs s).foldl (fun st e => objInsert st e.1 e.2) [] := by
  rw [deserializeCSP, clausePairs, List.foldl_map]
  exact foldl_congr_fun _ _ _ _ (fun acc x _ => insertClause_eq acc x)

theorem foldl_objInsert_keys : ∀ (ps : List (Str × List Str)) (acc : Obj),
    (ps.foldl (fun st e => objInsert st e.1 e.2) acc).map Prod.fst =
      (ps.map Prod.fst).foldl
        (fun ks k => if k = str "__proto__" ∨ k ∈ ks then ks else ks ++ [k])
        (acc.map Prod.fst) := by
  intro ps
  induction ps with
  | nil =>
    intro acc
    rfl
  | cons e ps ih =>
    intro acc
    rw [List.foldl_cons, List.map_cons, List.foldl_cons, ih, map_fst_objInsert]

/-- The parsed keys are exactly the clause names in first-occurrence
order. -/
theorem deserialize_keys (s : Str) :
    (deserializeCSP s).map Prod.fst = specKeys ((clausePairs s).map Prod.fst) := by
  rw [deserializeCSP_eq_foldPairs, foldl_objInsert_keys, specKeys]
  rfl

theorem foldl_objInsert_lookup {k : Str} (hk : k ≠ str "__proto__") :
    ∀ (ps : List (Str × List Str)) (acc : Obj),
    lookupObj k (ps.foldl (fun st e => objInsert st e.1 e.2) acc) =
      ps.foldl (fun a e => if e.1 = k then some e.2 else a) (lookupObj k acc) := by
  intro ps
  induction ps with
  | nil =>
    intro acc
    rfl
  | cons e ps ih =>
    intro acc
    rw [List.foldl_cons, List.foldl_cons, ih]
    congr 1
    by_cases hek : e.1 = k
    · rw [if_pos hek, ← hek, lookup_objInsert_self (hek ▸ hk)]
    · rw [if_neg hek, lookup_objInsert_other (fun hh => hek hh.symm)]

/-- Each parsed name's value is the value list of its last clause. -/
theorem deserialize_lookup {k : Str} (hk : k ≠ str "__proto__") (s : Str) :
    lookupObj k (deserializeCSP s) = lastVal k (clausePairs s) := by
  rw [deserializeCSP_eq_foldPairs, foldl_objInsert_lookup hk, lastVal]
  rfl

/-- When no key is an array index, enumeration order is creation order. -/
theorem objEntries_eq_self {store : Obj}
    (h : ∀ k ∈ store.map Prod.fst, isArrayIndex k = false) :
    objEntries store = store := by
  have h1 : store.filter (fun p => isArrayIndex p.1) = [] := by
    rw [List.filter_eq_nil_iff]
    intro a ha hc
    rw [h a.1 (List.mem_map.mpr ⟨a, ha, rfl⟩)] at hc
    cases hc
  have h2 : store.filter (fun p => !isArrayIndex p.1) = store := by
    rw [List.filter_eq_self]
    intro a ha
    rw [Bool.not_eq_true', h a.1 (List.mem_map.mpr ⟨a, ha, rfl⟩)]
  rw [objEntries, h1, h2]
  rfl

/-! ### Replacing one entry's value preserves enumeration order -/

theorem fst_replace {k : Str} {w : List Str} (p : Str × List Str) :
    ((if p.1 = k then (k, w) else p) : Str × List Str).1 = p.1 := by
  by_cases h : p.1 = k
  · rw [if_pos h, h]
  · rw [if_neg h]

theorem keyNum_replace {k : Str} {w : List Str} (p : Str × List Str) :
    keyNum (if p.1 = k then (k, w) else p) = keyNum p := by
  rw [keyNum, keyNum, fst_replace]

theorem entryLE_replace {k : Str} {w : List Str} (p q : Str × List Str) :
    entryLE (if p.1 = k then (k, w) else p) (if q.1 = k then (k, w) else q) ↔
      entryLE p q := by
  rw [entryLE, entryLE, keyNum_replace, keyNum_replace]

theorem orderedInsert_map_replace {k : Str} {w : List Str} (a : Str × List Str) :
    ∀ l : List (Str × List Str),
    List.orderedInsert entryLE ((fun p => if p.1 = k then (k, w) else p) a)
        (l.map (fun p => if p.1 = k then (k, w) else p)) =
      (List.orderedInsert entryLE a l).map (fun p => if p.1 = k then (k, w) else p) := by
  intro l
  induction l with
  | nil => rfl
  | cons b l ih =>
    rw [List.map_cons, List.orderedInsert, List.orderedInsert]
    by_cases hab : entryLE a b
    · rw [if_pos (entryLE_replace a b |>.mpr hab), if_pos hab, List.map_cons,
        List.map_cons]
    · rw [if_neg (fun hc => hab ((entryLE_replace a b).mp hc)), if_neg hab,
        List.map_cons, ih]

theorem insertionSort_map_replace {k : Str} {w : List Str} :
    ∀ l : List (Str × List Str),
    List.insertionSort entryLE (l.map (fun p => if p.1 = k then (k, w) else p)) =
      (List.insertionSort entryLE l).map (fun p => if p.1 = k then (k, w) else p) := by
  intro l
  induction l with
  | nil => rfl
  | cons a l ih =>
    rw [List.map_cons, List.insertionSort, List.insertionSort, ih,
      orderedInsert_map_replace]

theorem objEntries_map_replace (store : Obj) (k : Str) (w : List Str) :
    objEntries (store.map (fun p => if p.1 = k then (k, w) else p)) =
      (objEntries store).map (fun p => if p.1 = k then (k, w) else p) := by
  have hc1 : (fun p : Str × List Str => isArrayIndex p.1) ∘
      (fun p => if p.1 = k then (k, w) else p) =
      fun p : Str × List Str => isArrayIndex p.1 := by
    funext p
    show isArrayIndex ((if p.1 = k then (k, w) else p) : Str × List Str).1 = _
    rw [fst_replace]
  have hc2 : (fun p : Str × List Str => !isArrayIndex p.1) ∘
      (fun p => if p.1 = k then (k, w) else p) =
      fun p : Str × List Str => !isArrayIndex p.1 := by
    funext p
    show (!isArrayIndex ((if p.1 = k then (k, w) else p) : Str × List Str).1) = _
    rw [fst_replace]
  rw [objEntries, objEntries, List.map_append, List.filter_map, List.filter_map,
    hc1, hc2, insertionSort_map_replace]

/-- Assigning an existing key other than `__proto__` is an in-place value
replacement. -/
theorem objInsert_mem_eq_map {store : Obj} {k : Str} {v : List Str}
    (hk : k ∈ store.map Prod.fst) (hp : k ≠ str "__proto__") :
    objInsert store k v = store.map (fun p => if p.1 = k then (k, v) else p) := by
  rw [objInsert, if_neg hp, if_pos ?_]
  rw [List.any_eq_true]
  obtain ⟨e, he, hek⟩ := List.mem_map.mp hk
  exact ⟨e, he, by simp [hek]⟩

/-! ### Definitions taken from the specification's wording -/

/-- Specification-side: whether every stored token is free of the clause
separator `';'`. -/
def noSemiStore (D : Obj) : Bool :=
  D.all (fun e => !(decide (';' ∈ e.1)) && e.2.all (fun v => !(decide (';' ∈ v))))

/-- Specification-side: the input "parses as an integer" read strictly —
an optional sign followed by one or more digits and nothing else. -/
def isIntegerNumeral (s : Str) : Bool :=
  match s with
  | '-' :: ds => !ds.isEmpty && ds.all Char.isDigit
  | '+' :: ds => !ds.isEmpty && ds.all Char.isDigit
  | ds => !ds.isEmpty && ds.all Char.isDigit

/-- Core of splitting on a character class. -/
def splitPredCore (p : Char → Bool) : Str → Str × List Str
  | [] => ([], [])
  | c :: rest =>
    let r := splitPredCore p rest
    if p c then ([], r.1 :: r.2) else (c :: r.1, r.2)

/-- Specification-side: split on whitespace with empty tokens
discarded. -/
def specWhitespaceTokens (s : Str) : List Str :=
  ((splitPredCore isWS s).1 :: (splitPredCore isWS s).2).filter (fun t => t ≠ [])

theorem noSemi_of_inv {D : Obj} (h : Inv D) : noSemiStore D = true := by
  rw [noSemiStore, List.all_eq_true]
  intro e he
  obtain ⟨⟨_, hk, _⟩, _, hv, _⟩ := h.2.1 e he
  rw [Bool.and_eq_true]
  refine ⟨?_, ?_⟩
  · rw [Bool.not_eq_true', decide_eq_false_iff_not]
    exact hk
  · rw [List.all_eq_true]
    intro v hvm
    rw [Bool.not_eq_true', decide_eq_false_iff_not]
    exact (hv v hvm).2.1

theorem spaceOnly_no_tokens {input : Str} (h : ∀ c ∈ input, c = ' ') :
    (splitOnChar ' ' input).filter (fun v => v ≠ []) = [] := by
  rw [List.filter_eq_nil_iff]
  intro p hp hne
  rw [decide_eq_true_eq] at hne
  cases hq : p with
  | nil => exact hne hq
  | cons c cs =>
    rw [hq] at hp hne
    have hm := (mem_splitOnChar hp) c (List.mem_cons_self c cs)
    exact hm.2 (h c hm.1)

/-! ### The claims -/

/-- C1: round-trip law. For every input policy string, re-parsing the
serialization of the parsed directive set yields the same directive set
again: literally its entry list in enumeration order, hence the same
enumeration (`objEntries`, the order `Object.entries` exposes) and the
same value at every key — the three ways a JavaScript object is
observable. -/
theorem c1_round_trip (S : Str) :
    deserializeCSP (serializeCSP (deserializeCSP S)) = objEntries (deserializeCSP S) ∧
    objEntries (deserializeCSP (serializeCSP (deserializeCSP S))) =
      objEntries (deserializeCSP S) ∧
    ∀ k, lookupObj k (deserializeCSP (serializeCSP (deserializeCSP S))) =
      lookupObj k (deserializeCSP S) := by
  have hInv := parse_inv S
  have h1 := round_trip hInv
  refine ⟨h1, ?_, ?_⟩
  · rw [h1, objEntries_idem]
  · intro k
    rw [h1]
    exact lookup_perm (objEntries_perm _) k (Inv_objEntries hInv).1

/-- C2 (amended): the parsed directive set has unique names; its
creation order is the first-occurrence order of the clause names (the
non-inserting `__proto__` skipped); a repeated name keeps its first
position and takes its last clause's values; iteration order equals
creation order provided no name is an array-index string (otherwise
JavaScript enumerates index-like keys first); parsing `"a 1; b 2; a 3"`
yields `{a: ["3"], b: ["2"]}`; and re-inserting an existing name keeps
the key order while overwriting the value. -/
theorem c2_insertion_order (S : Str) :
    ((deserializeCSP S).map Prod.fst).Nodup ∧
    (deserializeCSP S).map Prod.fst = specKeys ((clausePairs S).map Prod.fst) ∧
    (∀ k, k ≠ str "__proto__" →
      lookupObj k (deserializeCSP S) = lastVal k (clausePairs S)) ∧
    ((∀ k ∈ (deserializeCSP S).map Prod.fst, isArrayIndex k = false) →
      objEntries (deserializeCSP S) = deserializeCSP S) ∧
    deserializeCSP (str "a 1; b 2; a 3") =
      [(str "a", [str "3"]), (str "b", [str "2"])] ∧
    (∀ (D : Obj) (k : Str) (v : List Str), k ∈ D.map Prod.fst →
      (objInsert D k v).map Prod.fst = D.map Prod.fst) ∧
    (∀ (D : Obj) (k : Str) (v : List Str), k ≠ str "__proto__" →
      lookupObj k (objInsert D k v) = some v) := by
  refine ⟨(parse_inv S).1, deserialize_keys S, fun k hk => deserialize_lookup hk S,
    objEntries_eq_self, by decide, ?_, fun D k v hp => lookup_objInsert_self hp⟩
  intro D k v hk
  rw [map_fst_objInsert, if_pos (Or.inr hk)]

/-- C2 counterexample: the claim's universally-quantified iteration-order
statement fails. Parsing `"a 1; 0 2"` enumerates the array-index name
`"0"` before `"a"`, not in first-occurrence order; and the name
`"__proto__"` never enters the set at all. -/
theorem c2_counterexample :
    objKeys (deserializeCSP (str "a 1; 0 2")) = [str "0", str "a"] ∧
    (deserializeCSP (str "a 1; 0 2")).map Prod.fst = [str "a", str "0"] ∧
    objKeys (deserializeCSP (str "a 1; 0 2")) ≠
      (deserializeCSP (str "a 1; 0 2")).map Prod.fst ∧
    deserializeCSP (str "__proto__ x") = [] := by decide

/-- C3 (amended): a clause is split on the single space character (not on
general whitespace) and each resulting token is trimmed; tokens
containing no space survive a join/split round trip — in particular
empty value tokens, which arise from runs of spaces and are kept, not
discarded; every token of a kept clause is trim-fixed and `';'`-free and
the name token is nonempty. -/
theorem c3_clause_tokenization :
    (∀ toks : List Str, toks ≠ [] → (∀ t ∈ toks, ' ' ∉ t ∧ trim t = t) →
      tokenizeClause (joinSep [' '] toks) = toks) ∧
    (∀ s p : Str, p ∈ clausesOf s →
      (∀ t ∈ tokenizeClause p, trim t = t ∧ ';' ∉ t) ∧
      ∀ t, (tokenizeClause p).head? = some t → t ≠ []) ∧
    tokenizeClause (str "a  b") = [str "a", [], str "b"] := by
  refine ⟨?_, ?_, by decide⟩
  · intro toks hne hgood
    rw [tokenizeClause, splitOnChar_joinSep (fun p hp => (hgood p hp).1) hne]
    calc toks.map trim = toks.map id :=
          List.map_congr_left (fun t ht => (hgood t ht).2)
      _ = toks := List.map_id toks
  · intro s p hp
    obtain ⟨h1, h2, h3⟩ := clausesOf_facts hp
    exact ⟨fun t ht => ⟨(tokenizeClause_good h3 t ht).1,
      (tokenizeClause_good h3 t ht).2.1⟩, tokenizeClause_head_ne_nil h1 h2⟩

/-- C3 counterexample: the parser does not split on whitespace. Two
spaces produce an empty value token which is kept, so `"a  b"` differs
from `"a b"`; and a tab does not separate at all, so `"a\tb"` becomes a
single directive name containing the tab. -/
theorem c3_counterexample :
    deserializeCSP (str "a  b") = [(str "a", [[], str "b"])] ∧
    deserializeCSP (str "a  b") ≠ deserializeCSP (str "a b") ∧
    deserializeCSP (str "a\tb") = [(str "a\tb", [])] ∧
    deserializeCSP (str "a\tb") ≠ deserializeCSP (str "a b") := by decide

/-- C4 (amended): at `MENU`, an input that is not case-insensitively
`P`/`A`/`Q` selects the directive at 1-indexed display position `k`
exactly when JavaScript `parseInt` of the input yields `k` with
`1 ≤ k ≤ n` (`parseInt` accepts sign, `0x`, and garbage after a digit
prefix, so inputs such as `"1x"` select too); every other such input
leaves `MENU` unchanged with an invalid-selection notice. -/
theorem c4_menu_dispatch (D : Obj) (answer : Str)
    (hP : toUpper answer ≠ str "P") (hA : toUpper answer ≠ str "A")
    (hQ : toUpper answer ≠ str "Q") :
    (∀ n : Int, parseIntJS answer = some n → 1 ≤ n →
      n ≤ ((objKeys D).length : Int) →
      stepMenu D answer = ⟨D, .EDIT_VALUE ((objKeys D).getD (n - 1).toNat []), none⟩) ∧
    (∀ n : Int, parseIntJS answer = some n →
      ¬(1 ≤ n ∧ n ≤ ((objKeys D).length : Int)) →
      stepMenu D answer = ⟨D, .MENU, some .invalidSelection⟩) ∧
    (parseIntJS answer = none →
      stepMenu D answer = ⟨D, .MENU, some .invalidSelection⟩) := by
  refine ⟨?_, ?_, ?_⟩
  · intro n hn h1 h2
    rw [stepMenu, if_neg hP, if_neg hA, if_neg hQ, hn]
    show (if 0 ≤ n - 1 ∧ n - 1 < ((objKeys D).length : Int) then
        EditorState.mk D (.EDIT_VALUE ((objKeys D).getD (n - 1).toNat [])) none
      else EditorState.mk D .MENU (some .invalidSelection)) = _
    rw [if_pos ⟨by omega, by omega⟩]
  · intro n hn h2
    rw [stepMenu, if_neg hP, if_neg hA, if_neg hQ, hn]
    show (if 0 ≤ n - 1 ∧ n - 1 < ((objKeys D).length : Int) then
        EditorState.mk D (.EDIT_VALUE ((objKeys D).getD (n - 1).toNat [])) none
      else EditorState.mk D .MENU (some .invalidSelection)) = _
    rw [if_neg (fun hc => h2 ⟨by omega, by omega⟩)]
  · intro hn
    rw [stepMenu, if_neg hP, if_neg hA, if_neg hQ, hn]

/-- C4 witness: with one directive, `"1"` selects it while the boundary
inputs `"0"` and `"2"` are invalid selections. -/
theorem c4_menu_dispatch_witness :
    stepMenu [(str "a", [str "1"])] (str "1") =
      ⟨[(str "a", [str "1"])], .EDIT_VALUE (str "a"), none⟩ ∧
    stepMenu [(str "a", [str "1"])] (str "0") =
      ⟨[(str "a", [str "1"])], .MENU, some .invalidSelection⟩ ∧
    stepMenu [(str "a", [str "1"])] (str "2") =
      ⟨[(str "a", [str "1"])], .MENU, some .invalidSelection⟩ := by
  refine ⟨?_, ?_, ?_⟩
  · exact ((c4_menu_dispatch [(str "a", [str "1"])] (str "1")
      (by decide) (by decide) (by decide)).1 1 (by decide) (by decide)
      (by decide)).trans (by decide)
  · exact (c4_menu_dispatch [(str "a", [str "1"])] (str "0")
      (by decide) (by decide) (by decide)).2.1 0 (by decide) (by decide)
  · exact (c4_menu_dispatch [(str "a", [str "1"])] (str "2")
      (by decide) (by decide) (by decide)).2.1 2 (by decide) (by decide)

/-- C4 counterexample: `"1x"` is not an integer numeral, yet the code
transitions to `EDIT_VALUE` for the first directive (JavaScript
`parseInt("1x")` is `1`), where the claim demands an invalid-selection
re-prompt. -/
theorem c4_counterexample :
    isIntegerNumeral (str "1x") = false ∧
    stepMenu [(str "a", [str "1"])] (str "1x") =
      ⟨[(str "a", [str "1"])], .EDIT_VALUE (str "a"), none⟩ := by decide

/-- C5 (amended): the parser establishes that no stored name or value
token contains `';'` — but the editor does not maintain this: the
value-replacement and directive-addition inputs are split only on spaces,
so a token containing `';'` enters the set verbatim (see the
counterexample). -/
theorem c5_no_semicolon (S : Str) : noSemiStore (deserializeCSP S) = true :=
  noSemi_of_inv (parse_inv S)

/-- C5 counterexample: the invariant is not maintained by the editor.
Replacing a value with `"x;y"`, or adding directive `"b u;v"`, stores a
token containing `';'`. -/
theorem c5_counterexample :
    noSemiStore (deserializeCSP (str "a 1")) = true ∧
    noSemiStore ((stepEdit (deserializeCSP (str "a 1")) (str "a")
      (str "x;y")).directives) = false ∧
    noSemiStore ((stepAdd (deserializeCSP (str "a 1"))
      (str "b u;v")).directives) = false := by decide

/-- C6 (amended): at `EDIT_VALUE` the input line is split on the space
character (not on general whitespace), empty tokens are discarded, the
chosen directive's values are replaced wholesale by exactly those tokens
(an input with no tokens yields the empty value sequence), and control
returns to `MENU`. -/
theorem c6_edit_value (D : Obj) (k : Str) (input : Str)
    (_hk : k ∈ D.map Prod.fst) (hp : k ≠ str "__proto__") :
    (stepEdit D k input).mode = .MENU ∧
    lookupObj k (stepEdit D k input).directives =
      some ((splitOnChar ' ' input).filter (fun v => v ≠ [])) :=
  ⟨rfl, lookup_objInsert_self hp⟩

/-- C6 witness: replacing with the empty input line yields the empty
value sequence, not a no-op. -/
theorem c6_edit_value_witness :
    (stepEdit [(str "a", [str "1"])] (str "a") (str "")).mode = .MENU ∧
    lookupObj (str "a") (stepEdit [(str "a", [str "1"])] (str "a")
      (str "")).directives =
      some ((splitOnChar ' ' (str "")).filter (fun v => v ≠ [])) :=
  c6_edit_value [(str "a", [str "1"])] (str "a") (str "") (by decide) (by decide)

/-- C6 counterexample: the replacement input is not split on whitespace:
`"x\ty"` is stored as the single token `"x\ty"`, where splitting on
whitespace would store the two tokens `"x"` and `"y"`. -/
theorem c6_counterexample :
    (stepEdit [(str "a", [str "1"])] (str "a") (str "x\ty")).directives =
      [(str "a", [str "x\ty"])] ∧
    specWhitespaceTokens (str "x\ty") = [str "x", str "y"] ∧
    ¬[str "x\ty"] = [str "x", str "y"] := by decide

/-- C7 (amended): at `ADD_NAME` the input is split on the space character
with empty tokens discarded; no token (in particular space-only input)
means an invalid-directive notice with the state and set unchanged;
otherwise the first token names the directive, the rest are its values,
the entry is inserted overwriting any existing one and control moves to
`MENU` — except that the name `__proto__` silently inserts nothing (the
JavaScript prototype setter), and a whitespace-only input containing a
tab is not rejected but inserts a directive named by the tab. -/
theorem c7_add_name (D : Obj) (input : Str) :
    ((splitOnChar ' ' input).filter (fun v => v ≠ []) = [] →
      stepAdd D input = ⟨D, .ADD_NAME, some .invalidDirective⟩) ∧
    (∀ d vs, (splitOnChar ' ' input).filter (fun v => v ≠ []) = d :: vs →
      (stepAdd D input).mode = .MENU ∧
      (stepAdd D input).directives = objInsert D d vs ∧
      (d ≠ str "__proto__" → lookupObj d (stepAdd D input).directives = some vs) ∧
      (d = str "__proto__" → (stepAdd D input).directives = D)) ∧
    ((∀ c ∈ input, c = ' ') →
      (splitOnChar ' ' input).filter (fun v => v ≠ []) = []) := by
  refine ⟨?_, ?_, fun h => spaceOnly_no_tokens h⟩
  · intro h
    rw [stepAdd, h]
  · intro d vs h
    rw [stepAdd, h]
    refine ⟨rfl, rfl, fun hd => lookup_objInsert_self hd, fun hd => ?_⟩
    show objInsert D d vs = D
    rw [objInsert, if_pos hd]

/-- C7 witness: adding `"frame-ancestors 'none'"` to the empty set
inserts it and returns to `MENU`; a space-only input is rejected in
place. -/
theorem c7_add_name_witness :
    (stepAdd ([] : Obj) (str "frame-ancestors 'none'")).mode = .MENU ∧
    (stepAdd ([] : Obj) (str "frame-ancestors 'none'")).directives =
      objInsert [] (str "frame-ancestors") [str "'none'"] ∧
    stepAdd ([] : Obj) (str "  ") = ⟨[], .ADD_NAME, some .invalidDirective⟩ := by
  refine ⟨?_, ?_, ?_⟩
  · exact ((c7_add_name ([] : Obj) (str "frame-ancestors 'none'")).2.1
      (str "frame-ancestors") [str "'none'"] (by decide)).1
  · exact ((c7_add_name ([] : Obj) (str "frame-ancestors 'none'")).2.1
      (str "frame-ancestors") [str "'none'"] (by decide)).2.1
  · exact (c7_add_name ([] : Obj) (str "  ")).1 (by decide)

/-- C7 counterexample: adding `"__proto__ x"` transitions to `MENU` but
inserts nothing (the claim says the entry is inserted), and the
whitespace-only input `" \t "` is not rejected: it inserts a directive
named by a tab character. -/
theorem c7_counterexample :
    stepAdd ([] : Obj) (str "__proto__ x") = ⟨[], .MENU, none⟩ ∧
    stepAdd ([] : Obj) (str " \t ") = ⟨[(str "\t", [])], .MENU, none⟩ := by decide

/-- C8: parsing `"upgrade-insecure-requests;"` keeps the directive with
an empty value sequence, and serializing that set back renders the name
followed by the join's trailing space. -/
theorem c8_zero_value :
    deserializeCSP (str "upgrade-insecure-requests;") =
      [(str "upgrade-insecure-requests", [])] ∧
    serializeCSP [(str "upgrade-insecure-requests", [])] =
      str "upgrade-insecure-requests" ++ [' '] := by decide

/-- C9: value replacement is a frame operation — it changes only the
selected directive's value sequence: the name list, the enumeration
(display) order, and every other directive's value are unchanged, and
control returns to `MENU`. -/
theorem c9_edit_frame (D : Obj) (k : Str) (input : Str)
    (hk : k ∈ D.map Prod.fst) (hp : k ≠ str "__proto__") :
    ((stepEdit D k input).directives).map Prod.fst = D.map Prod.fst ∧
    (∀ q, q ≠ k → lookupObj q (stepEdit D k input).directives = lookupObj q D) ∧
    lookupObj k (stepEdit D k input).directives =
      some ((splitOnChar ' ' input).filter (fun v => v ≠ [])) ∧
    objEntries (stepEdit D k input).directives =
      (objEntries D).map (fun p => if p.1 = k then
        (k, (splitOnChar ' ' input).filter (fun v => v ≠ [])) else p) ∧
    (stepEdit D k input).mode = .MENU := by
  have hins : (stepEdit D k input).directives =
      D.map (fun p => if p.1 = k then
        (k, (splitOnChar ' ' input).filter (fun v => v ≠ [])) else p) :=
    objInsert_mem_eq_map hk hp
  refine ⟨?_, ?_, lookup_objInsert_self hp, ?_, rfl⟩
  · rw [hins, map_fst_replace]
  · intro q hq
    exact lookup_objInsert_other hq
  · rw [hins, objEntries_map_replace]

/-- C9 witness: editing directive `a` of `{a, b}` keeps the key list and
`b`'s value and replaces `a`'s value with the new tokens. -/
theorem c9_edit_frame_witness :
    ((stepEdit [(str "a", [str "1"]), (str "b", [str "2"])] (str "a")
      (str "z")).directives).map Prod.fst =
      [(str "a", [str "1"]), (str "b", [str "2"])].map Prod.fst ∧
    lookupObj (str "b") (stepEdit [(str "a", [str "1"]), (str "b", [str "2"])]
      (str "a") (str "z")).directives =
      lookupObj (str "b") [(str "a", [str "1"]), (str "b", [str "2"])] ∧
    lookupObj (str "a") (stepEdit [(str "a", [str "1"]), (str "b", [str "2"])]
      (str "a") (str "z")).directives =
      some ((splitOnChar ' ' (str "z")).filter (fun v => v ≠ [])) := by
  obtain ⟨h1, h2, h3, _, _⟩ := c9_edit_frame
    [(str "a", [str "1"]), (str "b", [str "2"])] (str "a") (str "z")
    (by decide) (by decide)
  exact ⟨h1, h2 (str "b") (by decide), h3⟩

/-- C10: serializing the empty directive set — the set used when no
policy header is found or the fetch fails — yields exactly the empty
string. -/
theorem c10_empty_serialize : serializeCSP [] = [] := rfl

end CSPEd
